import Mathlib

/-!
Verification development for the sparse cellular-automaton scripts in
`src/0-games/0-automata/` (Conway's Life, Brian's Brain, two Wireworld
variants).  Each Python function that the claims depend on is shallowly
embedded below: Python `set`s of coordinates become `Finset`s, Python
`dict`s (whose insertion-order semantics matter for concrete outputs)
become association lists with an order-preserving insert, machine
integers become `Int`/`Nat`, and fallible parsing returns `Option`.
-/

/-- A grid coordinate `(row, col)`, as in the Python `(y, x)` tuples. -/
abbrev Coord := Int × Int

/-- The eight Moore-neighborhood offsets, in the order produced by the
Python comprehension `for dy in [-1,0,1] for dx in [-1,0,1] if (dy,dx) != (0,0)`. -/
def mooreDeltas : List Coord :=
  [(-1,-1), (-1,0), (-1,1), (0,-1), (0,1), (1,-1), (1,0), (1,1)]

/-- `get_neighbors(y, x, height, width)` from all four scripts:
`[((y+dy) % height, (x+dx) % width) for ...]`.  `Int.emod` agrees with
Python `%` for positive modulus. -/
def get_neighbors (h w : Int) (c : Coord) : List Coord :=
  mooreDeltas.map (fun d => ((c.1 + d.1) % h, (c.2 + d.2) % w))

/-- A coordinate lies inside the declared `height × width` bounds. -/
def inB (h w : Int) (c : Coord) : Prop :=
  0 ≤ c.1 ∧ c.1 < h ∧ 0 ≤ c.2 ∧ c.2 < w

instance (h w : Int) (c : Coord) : Decidable (inB h w c) := by
  unfold inB; infer_instance

/-- Modelled from the spec (§4.2): the delta pairs `{-1,0,1}²` minus `(0,0)`. -/
def specDeltas : List Coord :=
  ((([-1, 0, 1] : List Int).flatMap
    (fun dy => ([-1, 0, 1] : List Int).map (fun dx => (dy, dx))))).filter
    (fun d => decide (d ≠ ((0 : Int), (0 : Int))))

/-- Modelled from the spec (§4.2): each neighbor component computed as
`(coord.component + delta + dimension) mod dimension`. -/
def specNeighbors (h w : Int) (c : Coord) : List Coord :=
  specDeltas.map (fun d => ((c.1 + d.1 + h) % h, (c.2 + d.2 + w) % w))

section LifeDefs

/-- The `neighbor_counts` value at `c` built by `step` in `game-of-life.py`:
every live cell bumps the counter of each of its eight (wrapped) neighbors. -/
def lifeNeighborCount (grid : Finset Coord) (h w : Int) (c : Coord) : Nat :=
  ∑ g in grid, (get_neighbors h w g).count c

/-- The key set of `neighbor_counts`: all wrapped neighbors of live cells. -/
def lifeCandidates (grid : Finset Coord) (h w : Int) : Finset Coord :=
  grid.biUnion (fun g => (get_neighbors h w g).toFinset)

/-- `step(grid, height, width)` from `game-of-life.py`: a candidate joins
`new_grid` iff its count is 3, or its count is 2 and it is currently live. -/
def lifeStep (grid : Finset Coord) (h w : Int) : Finset Coord :=
  (lifeCandidates grid h w).filter
    (fun c => lifeNeighborCount grid h w c = 3 ∨
      (lifeNeighborCount grid h w c = 2 ∧ c ∈ grid))

/-- The number of live toroidal Moore neighbors of `c` (used to state the
Life rule the way the spec words it). -/
def aliveNeighborCount (grid : Finset Coord) (h w : Int) (c : Coord) : Nat :=
  (get_neighbors h w c).countP (fun n => decide (n ∈ grid))

/-- The pattern-stamp handler in `game-of-life.py` `main`:
`grid.add((cursor_y + dy, cursor_x + dx))` for each pattern offset —
raw coordinates, no wrapping, no bounds check. -/
def lifeStamp (grid : Finset Coord) (cells : List Coord) (cur : Coord) : Finset Coord :=
  cells.foldl (fun g d => insert (cur.1 + d.1, cur.2 + d.2) g) grid

/-- Cell access `grid[r][c]` on the dense row-list grid of
`game-of-life-deepseek.py` (only ever used after its bounds check). -/
def dsCell (grid : List (List Nat)) (r c : Int) : Nat :=
  (grid.getD r.toNat []).getD c.toNat 0

/-- `get_neighbors(grid, row, col)` from `game-of-life-deepseek.py`
(lines 55–65): loop `i, j ∈ {-1,0,1}²` skipping `(0,0)`; a neighbor value
is appended (here: contributes, else 0) only when
`0 <= r < rows and 0 <= c < cols` — out-of-range neighbors are dropped,
not wrapped — and the SUM of the surviving values is returned
(`len(grid[0])` is modeled with `headD`). -/
def dsGetNeighbors (grid : List (List Nat)) (row col : Int) : Nat :=
  (mooreDeltas.map (fun d =>
    if inB (grid.length : Int) ((grid.headD []).length : Int) (row + d.1, col + d.2)
    then dsCell grid (row + d.1) (col + d.2) else 0)).sum

/-- A 10×10 dense grid with live cells at exactly (0,9), (9,0), (9,9). -/
def dsDemoGrid : List (List Nat) :=
  [[0,0,0,0,0,0,0,0,0,1],
   [0,0,0,0,0,0,0,0,0,0],
   [0,0,0,0,0,0,0,0,0,0],
   [0,0,0,0,0,0,0,0,0,0],
   [0,0,0,0,0,0,0,0,0,0],
   [0,0,0,0,0,0,0,0,0,0],
   [0,0,0,0,0,0,0,0,0,0],
   [0,0,0,0,0,0,0,0,0,0],
   [0,0,0,0,0,0,0,0,0,0],
   [1,0,0,0,0,0,0,0,0,1]]

end LifeDefs

section DictDefs

variable {β : Type}

/-- Python `dict` lookup, `grid.get(k)`. -/
def dlookup : List (Coord × β) → Coord → Option β
  | [], _ => none
  | kv :: rest, k => if kv.1 = k then some kv.2 else dlookup rest k

/-- Python `grid.get(k, dflt)`. -/
def dget (d : List (Coord × β)) (k : Coord) (dflt : β) : β :=
  (dlookup d k).getD dflt

/-- Python `d[k] = v`: updating an existing key keeps its position,
a new key is appended (CPython insertion-order semantics). -/
def dinsert (k : Coord) (v : β) : List (Coord × β) → List (Coord × β)
  | [] => [(k, v)]
  | kv :: rest => if kv.1 = k then (k, v) :: rest else kv :: dinsert k v rest

/-- The keys of the dict, in order. -/
def dkeys (d : List (Coord × β)) : List Coord := d.map Prod.fst

end DictDefs

section BrianDefs

/-- The `new_grid` writes of the first loop of `step` in
`game-of-brians-brain.py`: `ON → RECRUITING`, `RECRUITING → OFF`
(an explicit `"OFF"` entry), other entries not copied. -/
def bbFirstPass (grid : List (Coord × String)) : List (Coord × String) :=
  grid.foldl (fun ng kv =>
    if kv.2 = "ON" then dinsert kv.1 "RECRUITING" ng
    else if kv.2 = "RECRUITING" then dinsert kv.1 "OFF" ng
    else ng) []

/-- The `neighbor_counts` dict built by the same loop:
`neighbor_counts[n] = neighbor_counts.get(n, 0) + (1 if state == "ON" else 0)`
for every neighbor `n` of every stored cell. -/
def bbCounts (grid : List (Coord × String)) (h w : Int) : List (Coord × Nat) :=
  grid.foldl (fun counts kv =>
    (get_neighbors h w kv.1).foldl
      (fun cs n => dinsert n (dget cs n 0 + (if kv.2 = "ON" then 1 else 0)) cs)
      counts) []

/-- The second loop of `step`: `new_grid[c] = "ON"` whenever
`count == 2 and grid.get(c, "OFF") == "OFF"`. -/
def bbSecondPass (grid : List (Coord × String)) (counts : List (Coord × Nat))
    (ng : List (Coord × String)) : List (Coord × String) :=
  counts.foldl (fun ng kv =>
    if kv.2 = 2 ∧ dget grid kv.1 "OFF" = "OFF" then dinsert kv.1 "ON" ng else ng) ng

/-- `step(grid, height, width)` from `game-of-brians-brain.py`. -/
def bbStep (grid : List (Coord × String)) (h w : Int) : List (Coord × String) :=
  bbSecondPass grid (bbCounts grid h w) (bbFirstPass grid)

/-- The SPACE toggle handler in `main`:
`grid[c] = "ON" if grid.get(c, "OFF") == "OFF" else "OFF"`. -/
def bbToggle (grid : List (Coord × String)) (c : Coord) : List (Coord × String) :=
  dinsert c (if dget grid c "OFF" = "OFF" then "ON" else "OFF") grid

/-- The pattern handler in `main`: `grid[(cursor_y+dy, cursor_x+dx)] = "ON"`. -/
def bbStampOn (grid : List (Coord × String)) (cells : List Coord) (cur : Coord) :
    List (Coord × String) :=
  cells.foldl (fun g d => dinsert (cur.1 + d.1, cur.2 + d.2) "ON" g) grid

/-- The number of toroidal neighbors of `c` whose current state is `"ON"`. -/
def onNeighborCount (grid : List (Coord × String)) (h w : Int) (c : Coord) : Nat :=
  (get_neighbors h w c).countP (fun n => decide (dget grid n "OFF" = "ON"))

/-- Universes reachable in `game-of-brians-brain.py` from the empty grid
through the editing and stepping operations of `main`. -/
inductive BBReachable (h w : Int) : List (Coord × String) → Prop
  | init : BBReachable h w []
  | toggle (g c) : BBReachable h w g → BBReachable h w (bbToggle g c)
  | stamp (g cells cur) : BBReachable h w g → BBReachable h w (bbStampOn g cells cur)
  | step (g) : BBReachable h w g → BBReachable h w (bbStep g h w)

end BrianDefs

section WireworldDefs

/-- `head_count` in `step` of `game-of-wireworld.py`: the number of
neighbors `n` with `grid.get(n) == 3` (state 3 is the Electron Tail). -/
def wwTailCount (grid : List (Coord × Nat)) (h w : Int) (c : Coord) : Nat :=
  (get_neighbors h w c).countP (fun n => decide (dlookup grid n = some 3))

/-- `step(grid, height, width)` from `game-of-wireworld.py`:
first loop `2 → 3`, `3 → 0` (an explicit `0` entry); second loop turns a
wire (`1`) into `2` when `head_count` (which counts state-3 neighbors)
is 1 or 2; wires that stay wires are never written to `new_grid`. -/
def wwStep (grid : List (Coord × Nat)) (h w : Int) : List (Coord × Nat) :=
  (grid.foldl (fun ng kv =>
    if kv.2 = 1 then
      (if wwTailCount grid h w kv.1 = 1 ∨ wwTailCount grid h w kv.1 = 2
        then dinsert kv.1 2 ng else ng)
    else ng)
  (grid.foldl (fun ng kv =>
    if kv.2 = 2 then dinsert kv.1 3 ng
    else if kv.2 = 3 then dinsert kv.1 0 ng
    else ng) []))

/-- The SPACE toggle handler in `game-of-wireworld.py` `main`:
`grid[c] = (grid.get(c, 0) + 1) % 4`. -/
def wwToggle (grid : List (Coord × Nat)) (c : Coord) : List (Coord × Nat) :=
  dinsert c ((dget grid c 0 + 1) % 4) grid

/-- Cell states of `game-of-wireworld1.py` (`EMPTY`, `WIRE`, `HEAD`, `TAIL`). -/
inductive WCell
  | emp
  | wire
  | ehead
  | etail
  deriving DecidableEq

/-- The per-cell transition computed inside `step` of `game-of-wireworld1.py`
(this variant counts `HEAD` neighbors for the wire rule). -/
def ww1CellNext (grid : List (Coord × WCell)) (h w : Int) (pos : Coord) : WCell :=
  match dget grid pos WCell.emp with
  | WCell.ehead => WCell.etail
  | WCell.etail => WCell.emp
  | WCell.emp => WCell.emp
  | WCell.wire =>
    if (get_neighbors h w pos).countP (fun n => decide (dget grid n WCell.emp = WCell.ehead)) = 1 ∨
       (get_neighbors h w pos).countP (fun n => decide (dget grid n WCell.emp = WCell.ehead)) = 2
    then WCell.ehead else WCell.wire

/-- The dense scan order `for y in range(height): for x in range(width)`. -/
def allCoords (h w : Nat) : List Coord :=
  (List.range h).flatMap (fun y => (List.range w).map (fun x => ((y : Int), (x : Int))))

/-- `step` from `game-of-wireworld1.py`: dense scan over the declared
bounds, then `{k: v for k, v in new_grid.items() if v != EMPTY}`. -/
def ww1Step (grid : List (Coord × WCell)) (h w : Nat) : List (Coord × WCell) :=
  ((allCoords h w).map (fun pos => (pos, ww1CellNext grid (h : Int) (w : Int) pos))).filter
    (fun kv => decide (kv.2 ≠ WCell.emp))

/-- The pattern handler in `game-of-wireworld1.py` `main`: each target
`(cursor_y+dy, cursor_x+dx)` receives `WIRE` only when
`0 <= py < grid_height and 0 <= px < grid_width`; out-of-bounds targets
are skipped. -/
def ww1Stamp (grid : List (Coord × WCell)) (h w : Nat) (cells : List Coord) (cur : Coord) :
    List (Coord × WCell) :=
  cells.foldl (fun g d =>
    if 0 ≤ cur.1 + d.1 ∧ cur.1 + d.1 < (h : Int) ∧ 0 ≤ cur.2 + d.2 ∧ cur.2 + d.2 < (w : Int)
    then dinsert (cur.1 + d.1, cur.2 + d.2) WCell.wire g else g) grid

/-- Modelled from the spec (§4.4): the wrap-accepting stamp policy the
claim asserts — every target coordinate is reduced toroidally and written. -/
def specStampWrap (grid : List (Coord × WCell)) (h w : Nat) (cells : List Coord) (cur : Coord) :
    List (Coord × WCell) :=
  cells.foldl (fun g d =>
    dinsert ((cur.1 + d.1) % (h : Int), (cur.2 + d.2) % (w : Int)) WCell.wire g) grid

/-- Pattern 1 ("Straight Wire") of `game-of-wireworld1.py`. -/
def straightWirePattern : List Coord := [(0,0), (0,1), (0,2), (0,3)]

end WireworldDefs

section SerializationDefs

/-- The decimal digit character for `d < 10`. -/
def digitChar (d : Nat) : Char :=
  if d = 0 then '0' else if d = 1 then '1' else if d = 2 then '2'
  else if d = 3 then '3' else if d = 4 then '4' else if d = 5 then '5'
  else if d = 6 then '6' else if d = 7 then '7' else if d = 8 then '8'
  else if d = 9 then '9' else '*'

/-- The numeric value of a decimal digit character. -/
def digitVal (c : Char) : Option Nat :=
  if c = '0' then some 0 else if c = '1' then some 1 else if c = '2' then some 2
  else if c = '3' then some 3 else if c = '4' then some 4 else if c = '5' then some 5
  else if c = '6' then some 6 else if c = '7' then some 7 else if c = '8' then some 8
  else if c = '9' then some 9 else none

/-- Fueled digit expansion (the fuel `n + 1` always suffices). -/
def natToDigitsAux : Nat → Nat → List Char
  | 0, _ => []
  | fuel + 1, n =>
    if n < 10 then [digitChar n]
    else natToDigitsAux fuel (n / 10) ++ [digitChar (n % 10)]

/-- Decimal digits of `n`, as Python `f"{n}"` renders a nonnegative int. -/
def natToDigits (n : Nat) : List Char := natToDigitsAux (n + 1) n

/-- Python `f"{k}"` for an int. -/
def encInt (k : Int) : List Char :=
  if k < 0 then '-' :: natToDigits k.natAbs else natToDigits k.natAbs

/-- The string key `f"{k[0]},{k[1]}"` produced by `save_state`. -/
def encKey (y x : Int) : List Char := encInt y ++ ',' :: encInt x

/-- One digit-folding step of the numeral parse: fail on a non-digit. -/
def parseStep (acc : Option Nat) (c : Char) : Option Nat :=
  match acc, digitVal c with
  | some a, some d => some (10 * a + d)
  | _, _ => none

/-- Digit-folding accumulator for `pyInt`. -/
def parseNatAux : Option Nat → List Char → Option Nat
  | acc, [] => acc
  | acc, c :: rest => parseNatAux (parseStep acc c) rest

/-- An unsigned decimal numeral (nonempty all-digit string). -/
def parseNat (l : List Char) : Option Nat :=
  match l with
  | [] => none
  | _ => parseNatAux (some 0) l

/-- Python `int(s)` on the strings relevant here: an optional sign
followed by decimal digits; `none` models the raised `ValueError`. -/
def pyInt (l : List Char) : Option Int :=
  match l with
  | [] => none
  | c :: rest =>
    if c = '-' then (parseNat rest).map (fun n => -(n : Int))
    else if c = '+' then (parseNat rest).map (fun n => (n : Int))
    else (parseNat (c :: rest)).map (fun n => (n : Int))

/-- Python `s.split(',')`. -/
def splitComma : List Char → List (List Char)
  | [] => [[]]
  | c :: rest =>
    if c = ',' then [] :: splitComma rest
    else
      match splitComma rest with
      | [] => [[c]]
      | p :: ps => (c :: p) :: ps

/-- Sequencing of `Option`-valued decoding over a list: the whole
comprehension fails as soon as one element fails. -/
def mapOpt {α β : Type} (f : α → Option β) : List α → Option (List β)
  | [] => some []
  | a :: l =>
    match f a, mapOpt f l with
    | some b, some bs => some (b :: bs)
    | _, _ => none

/-- `tuple(map(int, k.split(',')))` from `load_state`; the tuple keeps
whatever arity the split produced, and `none` models the `ValueError`
raised by `int` on an undecodable piece. -/
def decodeKey (s : List Char) : Option (List Int) := mapOpt pyInt (splitComma s)

/-- `load_state` from `game-of-brians-brain.py`: rebuild the dict from the
JSON record; keys are decoded, state tokens are passed through untouched. -/
def bbLoad (r : List (List Char × String)) : Option (List (List Int × String)) :=
  mapOpt (fun kv => (decodeKey kv.1).map (fun k => (k, kv.2))) r

/-- The record written by the brians-brain save handler:
`save_state({k: v for k, v in grid.items() if v != "OFF"})`, with
`save_state` encoding each key as `f"{k[0]},{k[1]}"`. -/
def bbSaveRecord (grid : List (Coord × String)) : List (List Char × String) :=
  (grid.filter (fun kv => decide (kv.2 ≠ "OFF"))).map
    (fun kv => (encKey kv.1.1 kv.1.2, kv.2))

/-- The record written by the `game-of-wireworld.py` save handler
(`save_state({k: v for k, v in grid.items() if v != 0})`). -/
def wwSaveRecord (grid : List (Coord × Nat)) : List (List Char × Nat) :=
  (grid.filter (fun kv => decide (kv.2 ≠ 0))).map
    (fun kv => (encKey kv.1.1 kv.1.2, kv.2))

/-- The record written by `save_state` of `game-of-wireworld1.py`
(it filters `v != EMPTY` itself). -/
def ww1SaveRecord (grid : List (Coord × WCell)) : List (List Char × WCell) :=
  (grid.filter (fun kv => decide (kv.2 ≠ WCell.emp))).map
    (fun kv => (encKey kv.1.1 kv.1.2, kv.2))

/-- A Coord-keyed universe viewed with the tuple-list keys `load_state`
produces (the injection is `(y, x) ↦ [y, x]`). -/
def asLoaded (grid : List (Coord × String)) : List (List Int × String) :=
  grid.map (fun kv => ([kv.1.1, kv.1.2], kv.2))

/-- The driver's extinction test `if not new_grid`: dict emptiness. -/
def extinctionSignal {β : Type} (g : List (Coord × β)) : Bool := g.isEmpty

/-- Modelled from the spec (§4.6): C6's claimed failure condition — load
fails exactly when a coordinate token is undecodable or a state token is
outside the selected rule's state set. -/
def specLoadFailsIff (r : List (List Char × String)) (states : List String) : Prop :=
  bbLoad r = none ↔
    ((∃ kv ∈ r, decodeKey kv.1 = none) ∨ (∃ kv ∈ r, kv.2 ∉ states))

/-- The total contribution the `bbCounts` loop makes at coordinate `c`:
each stored cell adds `1` per neighbor-list occurrence of `c` when its
state is `"ON"`, and `0` otherwise. -/
def bbTally (grid : List (Coord × String)) (h w : Int) (c : Coord) : Nat :=
  (grid.map (fun kv => (if kv.2 = "ON" then 1 else 0) * (get_neighbors h w kv.1).count c)).sum

end SerializationDefs

/-! ## Claim theorems (easy group) -/

/-- The shared `get_neighbors` of the four sparse scripts returns exactly
the 8 toroidal Moore neighbors — it agrees with the spec's
`(component + delta + dimension) mod dimension` formula over the deltas
`{-1,0,1}² \ {(0,0)}`, has length 8, and in a 10×10 universe the
neighbors of `(0,0)` include `(9,9)`, `(9,0)`, `(0,9)`. -/
theorem get_neighbors_toroidal (h w : Int) (c : Coord) :
    get_neighbors h w c = specNeighbors h w c ∧
    (get_neighbors h w c).length = 8 ∧
    ((9 : Int), (9 : Int)) ∈ get_neighbors 10 10 (0, 0) ∧
    ((9 : Int), (0 : Int)) ∈ get_neighbors 10 10 (0, 0) ∧
    ((0 : Int), (9 : Int)) ∈ get_neighbors 10 10 (0, 0) := by
  refine ⟨?_, by simp [get_neighbors, mooreDeltas], by decide, by decide, by decide⟩
  have hd : specDeltas = mooreDeltas := by decide
  unfold get_neighbors specNeighbors
  rw [hd]
  apply List.map_congr_left
  intro d _
  have h1 : (c.1 + d.1 + h) % h = (c.1 + d.1) % h := by
    simp [Int.add_mul_emod_self_left]
  have h2 : (c.2 + d.2 + w) % w = (c.2 + d.2) % w := by
    simp [Int.add_mul_emod_self_left]
  rw [h1, h2]

/-- Summing conditional contributions equals summing over the filtered
sublist of contributors. -/
theorem sum_map_ite_filter {α : Type} (l : List α) (P : α → Prop) [DecidablePred P]
    (f : α → Nat) :
    (l.map (fun a => if P a then f a else 0)).sum =
      ((l.filter (fun a => decide (P a))).map f).sum := by
  induction l with
  | nil => rfl
  | cons a l ih =>
    by_cases hP : P a
    · simp only [List.map_cons, List.sum_cons, if_pos hP, List.filter_cons,
        decide_eq_true hP, if_true, ih]
    · simp only [List.map_cons, List.sum_cons, if_neg hP, List.filter_cons,
        decide_eq_false hP, Bool.false_eq_true, if_false, ih, Nat.zero_add]

/-- C7 (counterexample): `get_neighbors` of `game-of-life-deepseek.py` is
edge-clamped, not toroidal.  In the 10×10 grid with live cells at exactly
`(0,9)`, `(9,0)`, `(9,9)` — the three coordinates the claim says are
neighbors of `(0,0)` — the code reports 0 live neighbors at `(0,0)`,
while the toroidal Moore neighborhood the claim asserts carries 3. -/
theorem ds_get_neighbors_edge_clamped :
    dsGetNeighbors dsDemoGrid 0 0 = 0 ∧
    ((get_neighbors 10 10 (0, 0)).map (fun n => dsCell dsDemoGrid n.1 n.2)).sum = 3 := by
  decide

/-- C7 (amended): the shared `get_neighbors` of `game-of-life.py`,
`game-of-brians-brain.py` and both wireworld scripts returns exactly the
8 toroidal Moore neighbors of the spec's
`(component + delta + dimension) mod dimension` formula, and in a 10×10
universe the neighbors of `(0,0)` include `(9,9)`, `(9,0)`, `(0,9)`; but
`get_neighbors` of `game-of-life-deepseek.py` instead bounds-checks
`0 <= r < rows and 0 <= c < cols` and returns the sum of the surviving
in-window neighbor values — out-of-range neighbors are dropped
(edge-clamped), never wrapped. -/
theorem get_neighbors_policy (h w : Int) (c : Coord)
    (grid : List (List Nat)) (row col : Int) :
    (get_neighbors h w c = specNeighbors h w c ∧
     (get_neighbors h w c).length = 8 ∧
     ((9 : Int), (9 : Int)) ∈ get_neighbors 10 10 (0, 0) ∧
     ((9 : Int), (0 : Int)) ∈ get_neighbors 10 10 (0, 0) ∧
     ((0 : Int), (9 : Int)) ∈ get_neighbors 10 10 (0, 0)) ∧
    dsGetNeighbors grid row col =
      (((mooreDeltas.map (fun d => ((row + d.1 : Int), (col + d.2 : Int)))).filter
        (fun n => decide (inB (grid.length : Int) ((grid.headD []).length : Int) n))).map
        (fun n => dsCell grid n.1 n.2)).sum := by
  refine ⟨get_neighbors_toroidal h w c, ?_⟩
  unfold dsGetNeighbors
  have h1 : mooreDeltas.map (fun d =>
      if inB (grid.length : Int) ((grid.headD []).length : Int) (row + d.1, col + d.2)
      then dsCell grid (row + d.1) (col + d.2) else 0) =
    (mooreDeltas.map (fun d => ((row + d.1 : Int), (col + d.2 : Int)))).map
      (fun n => if inB (grid.length : Int) ((grid.headD []).length : Int) n
        then dsCell grid n.1 n.2 else 0) := by
    rw [List.map_map]
    rfl
  rw [h1, sum_map_ite_filter]

/-- C1 (failing input for `game-of-wireworld.py`): a WIRE at `(0,0)` with
exactly one HEAD neighbor at `(0,1)` does NOT become HEAD — the code's
`head_count` tests `grid.get(n) == 3` (the TAIL state), so the wire is
dropped from `new_grid` entirely; and a WIRE whose single excited
neighbor is a TAIL (state 3) does become HEAD, with the TAIL stored as an
explicit `0`. -/
theorem wwStep_counts_tails_not_heads :
    wwStep [((0,0), 1), ((0,1), 2)] 5 5 = [((0,1), 3)] ∧
    wwStep [((0,0), 1), ((0,1), 3)] 5 5 = [((0,1), 0), ((0,0), 2)] := by
  decide

/-- C2 (counterexample): the universe `{(0,0): "OFF"}` is reachable in
`game-of-brians-brain.py` (toggle a cell ON, then step twice: ON →
RECRUITING → explicit "OFF"), and it stores an entry mapping `(0,0)` to
the rule's default state OFF — the sparse invariant fails. -/
theorem bb_reachable_stores_default :
    BBReachable 5 5 [((0,0), "OFF")] ∧
    dlookup [((0,0), "OFF")] (0,0) = some "OFF" := by
  constructor
  · have h1 : bbStep (bbStep (bbToggle [] (0,0)) 5 5) 5 5 = [((0,0), "OFF")] := by
      decide
    rw [← h1]
    exact .step _ (.step _ (.toggle _ _ .init))
  · decide

/-- C2 (amended part that holds): `step` of `game-of-wireworld1.py`
filters EMPTY entries out of the new universe, so no entry it produces
maps to the default state. -/
theorem ww1Step_no_default_entries (grid : List (Coord × WCell)) (h w : Nat) :
    ∀ kv ∈ ww1Step grid h w, kv.2 ≠ WCell.emp := by
  intro kv hkv
  have := List.of_mem_filter hkv
  simpa using this

/-- Witness for `ww1Step_no_default_entries`. -/
theorem ww1Step_no_default_entries_witness :
    ((0,0), WCell.ehead) ∈ ww1Step [((0,0), WCell.wire), ((0,1), WCell.ehead)] 3 3 ∧
    (((0,0) : Coord), WCell.ehead).2 ≠ WCell.emp :=
  ⟨by decide,
    ww1Step_no_default_entries [((0,0), WCell.wire), ((0,1), WCell.ehead)] 3 3
      ((0,0), WCell.ehead) (by decide)⟩

/-- C4 (counterexample): stepping `{(0,0): "RECRUITING"}` yields a
universe with zero non-default coordinates (its only entry is an explicit
"OFF"), yet the driver's `if not new_grid:` extinction branch is NOT
taken because the dict is nonempty. -/
theorem bb_extinct_not_signaled :
    (bbStep [((0,0), "RECRUITING")] 5 5).countP (fun kv => decide (kv.2 ≠ "OFF")) = 0 ∧
    extinctionSignal (bbStep [((0,0), "RECRUITING")] 5 5) = false := by
  decide

/-- C5 (counterexample): the reachable universe `{(0,0): "OFF"}` does not
survive a save/load round trip — the save handler filters the OFF entry,
so loading the saved record yields the empty universe, while the original
universe stores one coordinate. -/
theorem bb_roundtrip_loses_default_entries :
    BBReachable 5 5 [((0,0), "OFF")] ∧
    bbLoad (bbSaveRecord [((0,0), "OFF")]) = some [] ∧
    asLoaded [((0,0), "OFF")] ≠ [] := by
  refine ⟨?_, by decide, by decide⟩
  have h1 : bbToggle (bbToggle [] (0,0)) (0,0) = [((0,0), "OFF")] := by decide
  rw [← h1]
  exact .toggle _ _ (.toggle _ _ .init)

/-- C9 (counterexample): stamping the 4-cell Straight Wire at cursor
`(9,8)` in a 10×10 `game-of-wireworld1.py` universe silently drops the
out-of-bounds targets `(9,10)`, `(9,11)` instead of wrapping them: the
wrapped equivalent `(9,0)` is not written, so the result differs from the
spec's wrap-accepting policy. -/
theorem ww1_stamp_drops_oob :
    ww1Stamp [] 10 10 straightWirePattern (9,8) ≠
      specStampWrap [] 10 10 straightWirePattern (9,8) ∧
    dlookup (ww1Stamp [] 10 10 straightWirePattern (9,8)) (9,0) = none ∧
    dlookup (specStampWrap [] 10 10 straightWirePattern (9,8)) (9,0) = some WCell.wire := by
  decide

/-- C6 (counterexample): the record `[("0,0", "PURPLE")]` has a state
token outside the Brian's-Brain state set, yet `load_state` succeeds and
returns the token unvalidated — the claimed failure condition does not
hold. -/
theorem bb_load_accepts_unknown_state :
    ¬ specLoadFailsIff [(['0', ',', '0'], "PURPLE")] ["ON", "RECRUITING", "OFF"] := by
  unfold specLoadFailsIff
  decide

/-- C10: the records emitted by the save handlers of
`game-of-brians-brain.py`, `game-of-wireworld.py` and
`game-of-wireworld1.py` contain only entries whose state differs from the
rule's default (OFF, 0, EMPTY respectively); default-state entries held
in memory are dropped from the persisted record. -/
theorem saveRecords_filter_defaults
    (g1 : List (Coord × String)) (g2 : List (Coord × Nat)) (g3 : List (Coord × WCell)) :
    (∀ kv ∈ bbSaveRecord g1, kv.2 ≠ "OFF") ∧
    (∀ kv ∈ wwSaveRecord g2, kv.2 ≠ 0) ∧
    (∀ kv ∈ ww1SaveRecord g3, kv.2 ≠ WCell.emp) := by
  refine ⟨?_, ?_, ?_⟩ <;>
    · intro kv hkv
      simp only [bbSaveRecord, wwSaveRecord, ww1SaveRecord, List.mem_map,
        List.mem_filter] at hkv
      obtain ⟨kv0, ⟨-, hp⟩, rfl⟩ := hkv
      simpa using hp

/-- Witness for `saveRecords_filter_defaults`. -/
theorem saveRecords_filter_defaults_witness :
    (encKey 0 0, "ON") ∈ bbSaveRecord [((0,0), "ON"), ((0,1), "OFF")] ∧
    ("ON" : String) ≠ "OFF" :=
  ⟨by decide,
    (saveRecords_filter_defaults [((0,0), "ON"), ((0,1), "OFF")] [] []).1
      (encKey 0 0, "ON") (by decide)⟩

/-! ## Life step correctness (C3) -/

/-- For in-range `a` and `b`, shifting by `d` modulo `h` is symmetric:
`(a + d) % h = b` iff `(b - d) % h = a`. -/
theorem emod_shift_iff {h a b : Int} (d : Int) (ha : 0 ≤ a) (ha' : a < h)
    (hb : 0 ≤ b) (hb' : b < h) :
    (a + d) % h = b ↔ (b + -d) % h = a := by
  have hae : a % h = a := Int.emod_eq_of_lt ha ha'
  have hbe : b % h = b := Int.emod_eq_of_lt hb hb'
  constructor
  · intro e
    calc (b + -d) % h = ((a + d) % h + -d) % h := by rw [e]
      _ = (a + d + -d) % h := Int.emod_add_emod _ _ _
      _ = a % h := by congr 1; ring
      _ = a := hae
  · intro e
    calc (a + d) % h = ((b + -d) % h + d) % h := by rw [e]
      _ = (b + -d + d) % h := Int.emod_add_emod _ _ _
      _ = b % h := by congr 1; ring
      _ = b := hbe

/-- Negating the Moore deltas permutes them (it reverses the list), so a
`countP` over the negated deltas equals the `countP` over the deltas. -/
theorem countP_comp_neg (p : Coord → Bool) :
    mooreDeltas.countP (fun d => p (-d.1, -d.2)) = mooreDeltas.countP p := by
  have h1 : mooreDeltas.map (fun d => ((-d.1 : Int), (-d.2 : Int))) = mooreDeltas.reverse := by
    decide
  calc mooreDeltas.countP (fun d => p (-d.1, -d.2))
      = (mooreDeltas.map (fun d => ((-d.1 : Int), (-d.2 : Int)))).countP p :=
        (List.countP_map p _ mooreDeltas).symm
    _ = mooreDeltas.reverse.countP p := by rw [h1]
    _ = mooreDeltas.countP p := by simp [List.countP_eq_length_filter]

/-- Toroidal Moore adjacency is symmetric with multiplicity: for in-bounds
`g` and `c`, `c` occurs in `g`'s neighbor list exactly as often as `g`
occurs in `c`'s. -/
theorem count_neighbors_symm {h w : Int} {g c : Coord}
    (hg : inB h w g) (hc : inB h w c) :
    (get_neighbors h w g).count c = (get_neighbors h w c).count g := by
  obtain ⟨hg1, hg2, hg3, hg4⟩ := hg
  obtain ⟨hc1, hc2, hc3, hc4⟩ := hc
  unfold get_neighbors
  rw [List.count_eq_countP, List.count_eq_countP, List.countP_map, List.countP_map]
  have key : ∀ d ∈ mooreDeltas,
      (((((g.1 + d.1) % h, (g.2 + d.2) % w) : Coord) == c) = true ↔
        ((((c.1 + -d.1) % h, (c.2 + -d.2) % w) : Coord) == g) = true) := by
    intro d _
    simp only [beq_iff_eq, Prod.ext_iff]
    rw [emod_shift_iff d.1 hg1 hg2 hc1 hc2, emod_shift_iff d.2 hg3 hg4 hc3 hc4]
  simp only [Function.comp_def]
  rw [List.countP_congr key]
  exact countP_comp_neg (fun e => (((c.1 + e.1) % h, (c.2 + e.2) % w) : Coord) == g)

/-- Summing per-element occurrence counts over a finite set of values is
the same as counting list positions whose value lies in the set. -/
theorem sum_count_eq_countP (l : List Coord) (s : Finset Coord) :
    (∑ g in s, l.count g) = l.countP (fun n => decide (n ∈ s)) := by
  induction l with
  | nil => simp
  | cons a l ih =>
    simp only [List.count_cons, List.countP_cons, Finset.sum_add_distrib, ih,
      beq_iff_eq, decide_eq_true_eq]
    congr 1
    rw [Finset.sum_ite_eq s a (fun _ => 1)]

/-- For an in-bounds universe and an in-bounds coordinate, the
`neighbor_counts` value computed by `step` equals the number of live
toroidal neighbors. -/
theorem lifeNeighborCount_eq_alive {grid : Finset Coord} {h w : Int} {c : Coord}
    (hg : ∀ g ∈ grid, inB h w g) (hc : inB h w c) :
    lifeNeighborCount grid h w c = aliveNeighborCount grid h w c := by
  unfold lifeNeighborCount aliveNeighborCount
  rw [Finset.sum_congr rfl (fun g hgm => count_neighbors_symm (hg g hgm) hc)]
  exact sum_count_eq_countP _ _

/-- A coordinate is a key of `neighbor_counts` iff its count is positive. -/
theorem lifeCandidates_mem_iff {grid : Finset Coord} {h w : Int} {c : Coord} :
    c ∈ lifeCandidates grid h w ↔ 0 < lifeNeighborCount grid h w c := by
  unfold lifeCandidates lifeNeighborCount
  simp only [Finset.mem_biUnion, List.mem_toFinset]
  constructor
  · rintro ⟨g, hgm, hmem⟩
    exact Finset.sum_pos' (fun i _ => Nat.zero_le _)
      ⟨g, hgm, List.count_pos_iff.mpr hmem⟩
  · intro hpos
    by_contra hno
    push_neg at hno
    have hz : (∑ g in grid, (get_neighbors h w g).count c) = 0 :=
      Finset.sum_eq_zero (fun g hgm => List.count_eq_zero.mpr (hno g hgm))
    omega

/-- C3: Life step correctness including frontier completeness — for every
in-bounds universe and every in-bounds coordinate (whether or not the
sparse algorithm evaluates it), the next generation contains the
coordinate iff it is currently alive with 2 or 3 live toroidal neighbors,
or currently absent with exactly 3 live toroidal neighbors.  In
particular an isolated live cell (0 live neighbors) is absent from the
next generation even though `step` only examines cells with at least one
live neighbor. -/
theorem lifeStep_mem_iff (grid : Finset Coord) (h w : Int) (c : Coord)
    (hg : ∀ g ∈ grid, inB h w g) (hc : inB h w c) :
    (c ∈ lifeStep grid h w ↔
      ((c ∈ grid ∧ (aliveNeighborCount grid h w c = 2 ∨ aliveNeighborCount grid h w c = 3)) ∨
       (c ∉ grid ∧ aliveNeighborCount grid h w c = 3))) := by
  have hN := lifeNeighborCount_eq_alive hg hc
  unfold lifeStep
  rw [Finset.mem_filter]
  constructor
  · rintro ⟨-, hrule⟩
    rw [hN] at hrule
    by_cases hcg : c ∈ grid
    · rcases hrule with h3 | ⟨h2, -⟩
      · exact Or.inl ⟨hcg, Or.inr h3⟩
      · exact Or.inl ⟨hcg, Or.inl h2⟩
    · rcases hrule with h3 | ⟨-, hmem⟩
      · exact Or.inr ⟨hcg, h3⟩
      · exact absurd hmem hcg
  · intro hrhs
    have hrule : lifeNeighborCount grid h w c = 3 ∨
        (lifeNeighborCount grid h w c = 2 ∧ c ∈ grid) := by
      rw [hN]
      rcases hrhs with ⟨hcg, h2 | h3⟩ | ⟨-, h3⟩
      · exact Or.inr ⟨h2, hcg⟩
      · exact Or.inl h3
      · exact Or.inl h3
    refine ⟨lifeCandidates_mem_iff.mpr ?_, hrule⟩
    rcases hrule with h3 | ⟨h2, -⟩ <;> omega

/-- Witness for `lifeStep_mem_iff`: the middle of a blinker's new bar. -/
theorem lifeStep_mem_iff_witness :
    (∀ g ∈ ({((0:Int),(0:Int)), ((0:Int),(1:Int)), ((0:Int),(2:Int))} : Finset Coord),
      inB 5 5 g) ∧
    inB 5 5 ((1:Int),(1:Int)) ∧
    (((1:Int),(1:Int)) ∈
        lifeStep {((0:Int),(0:Int)), ((0:Int),(1:Int)), ((0:Int),(2:Int))} 5 5 ↔
      ((((1:Int),(1:Int)) ∈ ({((0:Int),(0:Int)), ((0:Int),(1:Int)), ((0:Int),(2:Int))} : Finset Coord) ∧
        (aliveNeighborCount {((0:Int),(0:Int)), ((0:Int),(1:Int)), ((0:Int),(2:Int))} 5 5 ((1:Int),(1:Int)) = 2 ∨
         aliveNeighborCount {((0:Int),(0:Int)), ((0:Int),(1:Int)), ((0:Int),(2:Int))} 5 5 ((1:Int),(1:Int)) = 3)) ∨
       (((1:Int),(1:Int)) ∉ ({((0:Int),(0:Int)), ((0:Int),(1:Int)), ((0:Int),(2:Int))} : Finset Coord) ∧
        aliveNeighborCount {((0:Int),(0:Int)), ((0:Int),(1:Int)), ((0:Int),(2:Int))} 5 5 ((1:Int),(1:Int)) = 3))) :=
  ⟨by decide, by decide,
    lifeStep_mem_iff {((0:Int),(0:Int)), ((0:Int),(1:Int)), ((0:Int),(2:Int))} 5 5
      ((1:Int),(1:Int)) (by decide) (by decide)⟩

/-! ## Association-list dict lemmas -/

theorem dlookup_dinsert_self {β : Type} (d : List (Coord × β)) (k : Coord) (v : β) :
    dlookup (dinsert k v d) k = some v := by
  induction d with
  | nil => simp [dinsert, dlookup]
  | cons kv rest ih =>
    by_cases hk : kv.1 = k
    · simp [dinsert, hk, dlookup]
    · simp [dinsert, hk, dlookup, ih]

theorem dlookup_dinsert_ne {β : Type} (d : List (Coord × β)) {k c : Coord} (v : β)
    (hne : k ≠ c) : dlookup (dinsert k v d) c = dlookup d c := by
  induction d with
  | nil => simp [dinsert, dlookup, hne]
  | cons kv rest ih =>
    by_cases hk : kv.1 = k
    · simp [dinsert, hk, dlookup, hne]
    · simp [dinsert, hk, dlookup, ih]

theorem dget_dinsert_self {β : Type} (d : List (Coord × β)) (k : Coord) (v dflt : β) :
    dget (dinsert k v d) k dflt = v := by
  simp [dget, dlookup_dinsert_self]

theorem dget_dinsert_ne {β : Type} (d : List (Coord × β)) {k c : Coord} (v dflt : β)
    (hne : k ≠ c) : dget (dinsert k v d) c dflt = dget d c dflt := by
  simp [dget, dlookup_dinsert_ne d v hne]

theorem mem_dkeys_dinsert {β : Type} (d : List (Coord × β)) (k : Coord) (v : β) (c : Coord) :
    c ∈ dkeys (dinsert k v d) ↔ c = k ∨ c ∈ dkeys d := by
  induction d with
  | nil => simp [dinsert, dkeys]
  | cons kv rest ih =>
    by_cases hk : kv.1 = k
    · subst hk
      simp only [dinsert, eq_self_iff_true, if_true, dkeys, List.map_cons, List.mem_cons]
      tauto
    · simp only [dinsert, if_neg hk, dkeys, List.map_cons, List.mem_cons] at *
      rw [ih]
      tauto

theorem nodup_dkeys_dinsert {β : Type} (d : List (Coord × β)) (k : Coord) (v : β)
    (hd : (dkeys d).Nodup) : (dkeys (dinsert k v d)).Nodup := by
  induction d with
  | nil => simp [dinsert, dkeys]
  | cons kv rest ih =>
    rw [dkeys, List.map_cons, List.nodup_cons] at hd
    by_cases hk : kv.1 = k
    · simp only [dinsert, if_pos hk, dkeys, List.map_cons, List.nodup_cons]
      exact ⟨hk ▸ hd.1, hd.2⟩
    · simp only [dinsert, if_neg hk, dkeys, List.map_cons, List.nodup_cons]
      refine ⟨?_, ih hd.2⟩
      rw [show List.map Prod.fst (dinsert k v rest) = dkeys (dinsert k v rest) from rfl,
        mem_dkeys_dinsert]
      rintro (h1 | h2)
      · exact hk h1
      · exact hd.1 h2

theorem dlookup_eq_none_iff {β : Type} (d : List (Coord × β)) (k : Coord) :
    dlookup d k = none ↔ k ∉ dkeys d := by
  induction d with
  | nil => simp [dlookup, dkeys]
  | cons kv rest ih =>
    by_cases hk : kv.1 = k
    · simp [dlookup, hk, dkeys]
    · simp [dlookup, hk, dkeys, ih, Ne.symm hk]

theorem dlookup_mem {β : Type} {d : List (Coord × β)} {k : Coord} {v : β}
    (h : dlookup d k = some v) : (k, v) ∈ d := by
  induction d with
  | nil => simp [dlookup] at h
  | cons kv rest ih =>
    by_cases hk : kv.1 = k
    · rw [dlookup, if_pos hk] at h
      have hv : kv.2 = v := by injection h
      have hkv : kv = (k, v) := by
        obtain ⟨k0, v0⟩ := kv
        simp_all
      rw [hkv]
      exact List.mem_cons_self _ _
    · rw [dlookup, if_neg hk] at h
      exact List.mem_cons_of_mem _ (ih h)

theorem dlookup_isSome_of_mem_dkeys {β : Type} {d : List (Coord × β)} {k : Coord}
    (h : k ∈ dkeys d) : ∃ v, dlookup d k = some v := by
  cases hl : dlookup d k with
  | none => exact absurd ((dlookup_eq_none_iff d k).mp hl) (by simpa using h)
  | some v => exact ⟨v, rfl⟩

/-! ## Brian's Brain step characterization (C8) -/

theorem bbFirstPass_aux (grid : List (Coord × String)) (ng : List (Coord × String))
    (c : Coord) (hnd : (dkeys grid).Nodup) :
    dlookup (grid.foldl (fun ng kv =>
      if kv.2 = "ON" then dinsert kv.1 "RECRUITING" ng
      else if kv.2 = "RECRUITING" then dinsert kv.1 "OFF" ng
      else ng) ng) c =
    (if dlookup grid c = some "ON" then some "RECRUITING"
     else if dlookup grid c = some "RECRUITING" then some "OFF"
     else dlookup ng c) := by
  induction grid generalizing ng with
  | nil => simp [dlookup]
  | cons kv rest ih =>
    simp only [dkeys, List.map_cons, List.nodup_cons] at hnd
    simp only [List.foldl_cons]
    rw [ih _ hnd.2]
    by_cases hc : kv.1 = c
    · subst hc
      have hrn : dlookup rest kv.1 = none := (dlookup_eq_none_iff rest kv.1).mpr hnd.1
      rw [hrn]
      simp only [dlookup, if_pos rfl]
      by_cases h1 : kv.2 = "ON"
      · simp [h1, dlookup_dinsert_self]
      · by_cases h2 : kv.2 = "RECRUITING"
        · simp [h1, h2, dlookup_dinsert_self]
        · simp [h1, h2]
    · have hfn : dlookup
          (if kv.2 = "ON" then dinsert kv.1 "RECRUITING" ng
           else if kv.2 = "RECRUITING" then dinsert kv.1 "OFF" ng
           else ng) c = dlookup ng c := by
        by_cases h1 : kv.2 = "ON"
        · simp [h1, dlookup_dinsert_ne _ _ hc]
        · by_cases h2 : kv.2 = "RECRUITING" <;>
            simp [h1, h2, dlookup_dinsert_ne _ _ hc]
      rw [hfn]
      simp [dlookup, hc]

/-- Lookup in the first pass of `step`: ON cells map to RECRUITING,
RECRUITING cells to an explicit OFF, nothing else is written. -/
theorem bbFirstPass_lookup (grid : List (Coord × String)) (c : Coord)
    (hnd : (dkeys grid).Nodup) :
    dlookup (bbFirstPass grid) c =
    (if dlookup grid c = some "ON" then some "RECRUITING"
     else if dlookup grid c = some "RECRUITING" then some "OFF"
     else none) := by
  have := bbFirstPass_aux grid [] c hnd
  simpa [bbFirstPass, dlookup] using this

theorem bbCountsInner_get (ns : List Coord) (amt : Nat) (cs : List (Coord × Nat)) (c : Coord) :
    dget (ns.foldl (fun cs n => dinsert n (dget cs n 0 + amt) cs) cs) c 0 =
      dget cs c 0 + amt * ns.count c := by
  induction ns generalizing cs with
  | nil => simp
  | cons n ns ih =>
    simp only [List.foldl_cons]
    rw [ih]
    by_cases hn : n = c
    · subst hn
      rw [dget_dinsert_self, List.count_cons_self]
      ring
    · rw [dget_dinsert_ne _ _ _ hn, List.count_cons_of_ne (fun e => hn e.symm)]

theorem bbCountsInner_keys (ns : List Coord) (amt : Nat) (cs : List (Coord × Nat)) (c : Coord) :
    c ∈ dkeys (ns.foldl (fun cs n => dinsert n (dget cs n 0 + amt) cs) cs) ↔
      c ∈ dkeys cs ∨ c ∈ ns := by
  induction ns generalizing cs with
  | nil => simp
  | cons n ns ih =>
    simp only [List.foldl_cons]
    rw [ih, mem_dkeys_dinsert]
    simp only [List.mem_cons]
    tauto

theorem bbCountsInner_nodup (ns : List Coord) (amt : Nat) (cs : List (Coord × Nat))
    (hnd : (dkeys cs).Nodup) :
    (dkeys (ns.foldl (fun cs n => dinsert n (dget cs n 0 + amt) cs) cs)).Nodup := by
  induction ns generalizing cs with
  | nil => exact hnd
  | cons n ns ih => exact ih _ (nodup_dkeys_dinsert _ _ _ hnd)

theorem bbCounts_aux_get (grid : List (Coord × String)) (h w : Int) (c : Coord)
    (cs : List (Coord × Nat)) :
    dget (grid.foldl (fun counts kv =>
      (get_neighbors h w kv.1).foldl
        (fun cs n => dinsert n (dget cs n 0 + (if kv.2 = "ON" then 1 else 0)) cs)
        counts) cs) c 0 = dget cs c 0 + bbTally grid h w c := by
  induction grid generalizing cs with
  | nil => simp [bbTally]
  | cons kv rest ih =>
    simp only [List.foldl_cons]
    rw [ih, bbCountsInner_get]
    simp only [bbTally, List.map_cons, List.sum_cons]
    ring

/-- The `neighbor_counts` value at `c` is the total ON-cell contribution. -/
theorem bbCounts_get (grid : List (Coord × String)) (h w : Int) (c : Coord) :
    dget (bbCounts grid h w) c 0 = bbTally grid h w c := by
  have := bbCounts_aux_get grid h w c []
  simpa [bbCounts, dget, dlookup] using this

theorem bbCounts_aux_keys (grid : List (Coord × String)) (h w : Int) (c : Coord)
    (cs : List (Coord × Nat)) :
    c ∈ dkeys (grid.foldl (fun counts kv =>
      (get_neighbors h w kv.1).foldl
        (fun cs n => dinsert n (dget cs n 0 + (if kv.2 = "ON" then 1 else 0)) cs)
        counts) cs) ↔
      c ∈ dkeys cs ∨ ∃ kv ∈ grid, c ∈ get_neighbors h w kv.1 := by
  induction grid generalizing cs with
  | nil => simp
  | cons kv rest ih =>
    simp only [List.foldl_cons]
    rw [ih, bbCountsInner_keys]
    simp only [List.mem_cons]
    constructor
    · rintro ((hcs | hn) | ⟨kv2, hm, hn2⟩)
      · exact Or.inl hcs
      · exact Or.inr ⟨kv, Or.inl rfl, hn⟩
      · exact Or.inr ⟨kv2, Or.inr hm, hn2⟩
    · rintro (hcs | ⟨kv2, (rfl | hm), hn2⟩)
      · exact Or.inl (Or.inl hcs)
      · exact Or.inl (Or.inr hn2)
      · exact Or.inr ⟨kv2, hm, hn2⟩

/-- The keys of `neighbor_counts`: all neighbors of all stored cells. -/
theorem bbCounts_keys (grid : List (Coord × String)) (h w : Int) (c : Coord) :
    c ∈ dkeys (bbCounts grid h w) ↔ ∃ kv ∈ grid, c ∈ get_neighbors h w kv.1 := by
  have := bbCounts_aux_keys grid h w c []
  simpa [bbCounts, dkeys] using this

theorem bbCounts_aux_nodup (grid : List (Coord × String)) (h w : Int)
    (cs : List (Coord × Nat)) (hnd : (dkeys cs).Nodup) :
    (dkeys (grid.foldl (fun counts kv =>
      (get_neighbors h w kv.1).foldl
        (fun cs n => dinsert n (dget cs n 0 + (if kv.2 = "ON" then 1 else 0)) cs)
        counts) cs)).Nodup := by
  induction grid generalizing cs with
  | nil => exact hnd
  | cons kv rest ih =>
    simp only [List.foldl_cons]
    exact ih _ (bbCountsInner_nodup _ _ _ hnd)

theorem bbCounts_nodup (grid : List (Coord × String)) (h w : Int) :
    (dkeys (bbCounts grid h w)).Nodup := by
  have := bbCounts_aux_nodup grid h w [] (by simp [dkeys])
  simpa [bbCounts] using this

/-- Looking up a nonzero count in `neighbor_counts` is the same as the
tally having that value. -/
theorem bbCounts_lookup_iff (grid : List (Coord × String)) (h w : Int) (c : Coord)
    (k : Nat) (hk : k ≠ 0) :
    dlookup (bbCounts grid h w) c = some k ↔ bbTally grid h w c = k := by
  constructor
  · intro hl
    have hg := bbCounts_get grid h w c
    rw [dget, hl, Option.getD_some] at hg
    exact hg.symm
  · intro ht
    have hmem : c ∈ dkeys (bbCounts grid h w) := by
      rw [bbCounts_keys]
      by_contra hno
      push_neg at hno
      have hz : bbTally grid h w c = 0 := by
        unfold bbTally
        apply List.sum_eq_zero
        intro x hx
        simp only [List.mem_map] at hx
        obtain ⟨kv, hkv, rfl⟩ := hx
        rw [List.count_eq_zero.mpr (hno kv hkv), mul_zero]
      omega
    obtain ⟨v, hv⟩ := dlookup_isSome_of_mem_dkeys hmem
    have hg := bbCounts_get grid h w c
    rw [dget, hv, Option.getD_some] at hg
    rw [hv, hg, ht]

theorem bbSecondPass_aux (grid : List (Coord × String)) (counts : List (Coord × Nat))
    (ng : List (Coord × String)) (c : Coord) (hnd : (dkeys counts).Nodup) :
    dlookup (counts.foldl (fun ng kv =>
      if kv.2 = 2 ∧ dget grid kv.1 "OFF" = "OFF" then dinsert kv.1 "ON" ng else ng) ng) c =
    (if dlookup counts c = some 2 ∧ dget grid c "OFF" = "OFF" then some "ON"
     else dlookup ng c) := by
  induction counts generalizing ng with
  | nil => simp [dlookup]
  | cons kv rest ih =>
    simp only [dkeys, List.map_cons, List.nodup_cons] at hnd
    simp only [List.foldl_cons]
    rw [ih _ hnd.2]
    by_cases hc : kv.1 = c
    · subst hc
      have hrn : dlookup rest kv.1 = none := (dlookup_eq_none_iff rest kv.1).mpr hnd.1
      rw [hrn]
      simp only [dlookup, if_pos rfl]
      have hinner : ¬(none = some 2 ∧ dget grid kv.1 "OFF" = "OFF") := by
        rintro ⟨h1, -⟩; cases h1
      rw [if_neg hinner]
      by_cases hcond : kv.2 = 2 ∧ dget grid kv.1 "OFF" = "OFF"
      · rw [if_pos hcond, dlookup_dinsert_self]
        rw [if_pos (by simpa using hcond)]
      · rw [if_neg hcond]
        rw [if_neg (by simpa using hcond)]
    · have hfn : dlookup
          (if kv.2 = 2 ∧ dget grid kv.1 "OFF" = "OFF" then dinsert kv.1 "ON" ng else ng) c =
          dlookup ng c := by
        split
        · exact dlookup_dinsert_ne _ _ hc
        · rfl
      rw [hfn]
      simp [dlookup, hc]

theorem countP_dlookup_cons (l : List Coord) (kv : Coord × String)
    (rest : List (Coord × String)) (hrest : dlookup rest kv.1 = none) :
    l.countP (fun n => decide (dlookup (kv :: rest) n = some "ON")) =
    l.countP (fun n => decide (dlookup rest n = some "ON")) +
      (if kv.2 = "ON" then 1 else 0) * l.count kv.1 := by
  induction l with
  | nil => simp
  | cons x l ih =>
    simp only [List.countP_cons, List.count_cons]
    rw [ih]
    by_cases hx : x = kv.1
    · subst hx
      simp only [dlookup, if_pos rfl, hrest, beq_self_eq_true, if_true]
      have h1 : (decide (none = some "ON") : Bool) = false := by decide
      by_cases hon : kv.2 = "ON"
      · simp [hon]
        omega
      · have h2 : (decide (some kv.2 = some "ON") : Bool) = false := by
          simp [hon]
        simp [h2, h1, hon]
    · have hlk : dlookup (kv :: rest) x = dlookup rest x := by
        rw [dlookup, if_neg (fun e => hx e.symm)]
      have hbx : (x == kv.1) = false := by simp [hx]
      simp only [hlk, hbx, if_false]
      simp
      ring

/-- For an in-bounds universe with distinct keys and an in-bounds `c`,
the ON-contribution tally at `c` equals the number of toroidal neighbors
of `c` currently in state ON. -/
theorem bbTally_eq_onCount (grid : List (Coord × String)) (h w : Int) (c : Coord)
    (hnd : (dkeys grid).Nodup) (hg : ∀ kv ∈ grid, inB h w kv.1) (hc : inB h w c) :
    bbTally grid h w c = onNeighborCount grid h w c := by
  have hsym : bbTally grid h w c =
      (grid.map (fun kv =>
        (if kv.2 = "ON" then 1 else 0) * (get_neighbors h w c).count kv.1)).sum := by
    unfold bbTally
    congr 1
    apply List.map_congr_left
    intro kv hkv
    rw [count_neighbors_symm (hg kv hkv) hc]
  rw [hsym]
  have hpred : ∀ n ∈ get_neighbors h w c,
      ((decide (dget grid n "OFF" = "ON")) = true ↔
        (decide (dlookup grid n = some "ON")) = true) := by
    intro n _
    simp only [decide_eq_true_eq]
    unfold dget
    cases dlookup grid n <;> simp
  unfold onNeighborCount
  rw [List.countP_congr hpred]
  clear hsym hpred hg hc
  induction grid with
  | nil => simp [dlookup]
  | cons kv rest ih =>
    simp only [dkeys, List.map_cons, List.nodup_cons] at hnd
    have hrn : dlookup rest kv.1 = none := (dlookup_eq_none_iff rest kv.1).mpr hnd.1
    rw [countP_dlookup_cons _ kv rest hrn]
    simp only [List.map_cons, List.sum_cons]
    rw [ih hnd.2]
    ring

/-- C8: Brian's Brain transition rule — at every in-bounds coordinate of
an in-bounds, well-formed universe, `step` observes: ON → RECRUITING and
RECRUITING → OFF unconditionally, and an OFF/absent cell becomes ON iff
it has exactly 2 neighbors in state ON (RECRUITING neighbors contribute
nothing), else it stays OFF. -/
theorem bbStep_cell_rule (grid : List (Coord × String)) (h w : Int) (c : Coord)
    (hnd : (dkeys grid).Nodup)
    (hg : ∀ kv ∈ grid, inB h w kv.1)
    (hv : ∀ kv ∈ grid, kv.2 = "ON" ∨ kv.2 = "RECRUITING" ∨ kv.2 = "OFF")
    (hc : inB h w c) :
    dget (bbStep grid h w) c "OFF" =
      (if dget grid c "OFF" = "ON" then "RECRUITING"
       else if dget grid c "OFF" = "RECRUITING" then "OFF"
       else if onNeighborCount grid h w c = 2 then "ON" else "OFF") := by
  have h2 : dlookup (bbStep grid h w) c =
      (if dlookup (bbCounts grid h w) c = some 2 ∧ dget grid c "OFF" = "OFF" then some "ON"
       else dlookup (bbFirstPass grid) c) := by
    unfold bbStep bbSecondPass
    exact bbSecondPass_aux grid _ _ c (bbCounts_nodup grid h w)
  have hcount : (dlookup (bbCounts grid h w) c = some 2) ↔
      (onNeighborCount grid h w c = 2) := by
    rw [bbCounts_lookup_iff grid h w c 2 (by omega),
      bbTally_eq_onCount grid h w c hnd hg hc]
  have hfp := bbFirstPass_lookup grid c hnd
  cases hcur : dlookup grid c with
  | none =>
    have hcg : dget grid c "OFF" = "OFF" := by simp [dget, hcur]
    rw [hcur] at hfp
    simp at hfp
    by_cases hon : onNeighborCount grid h w c = 2
    · have hsome : dlookup (bbCounts grid h w) c = some 2 := hcount.mpr hon
      rw [hsome, hcg] at h2
      simp only [and_self, if_true, if_pos] at h2
      rw [hcg]
      simp [dget, h2, hon]
    · have hnsome : dlookup (bbCounts grid h w) c ≠ some 2 :=
        fun e => hon (hcount.mp e)
      rw [if_neg (fun hand => hnsome hand.1), hfp] at h2
      rw [hcg]
      simp [dget, h2, hon]
  | some v =>
    have hvmem := hv (c, v) (dlookup_mem hcur)
    simp only at hvmem
    rcases hvmem with hvon | hvrec | hvoff
    · subst hvon
      have hcg : dget grid c "OFF" = "ON" := by simp [dget, hcur]
      rw [hcur] at hfp
      simp at hfp
      rw [if_neg (fun hand => by rw [hcg] at hand; exact absurd hand.2 (by decide)),
        hfp] at h2
      rw [hcg]
      simp [dget, h2]
    · subst hvrec
      have hcg : dget grid c "OFF" = "RECRUITING" := by simp [dget, hcur]
      rw [hcur] at hfp
      simp at hfp
      rw [if_neg (fun hand => by rw [hcg] at hand; exact absurd hand.2 (by decide)),
        hfp] at h2
      rw [hcg]
      simp [dget, h2]
    · subst hvoff
      have hcg : dget grid c "OFF" = "OFF" := by simp [dget, hcur]
      rw [hcur] at hfp
      simp at hfp
      by_cases hon : onNeighborCount grid h w c = 2
      · have hsome : dlookup (bbCounts grid h w) c = some 2 := hcount.mpr hon
        rw [hsome, hcg] at h2
        simp only [and_self, if_true, if_pos] at h2
        rw [hcg]
        simp [dget, h2, hon]
      · have hnsome : dlookup (bbCounts grid h w) c ≠ some 2 :=
          fun e => hon (hcount.mp e)
        rw [if_neg (fun hand => hnsome hand.1), hfp] at h2
        rw [hcg]
        simp [dget, h2, hon]

/-- Witness for `bbStep_cell_rule`: an OFF cell with exactly two ON
neighbors turns ON. -/
theorem bbStep_cell_rule_witness :
    (dkeys [((0,0), "ON"), ((0,2), "ON")]).Nodup ∧
    (∀ kv ∈ ([((0,0), "ON"), ((0,2), "ON")] : List (Coord × String)), inB 5 5 kv.1) ∧
    (∀ kv ∈ ([((0,0), "ON"), ((0,2), "ON")] : List (Coord × String)),
      kv.2 = "ON" ∨ kv.2 = "RECRUITING" ∨ kv.2 = "OFF") ∧
    inB 5 5 ((1:Int),(1:Int)) ∧
    dget (bbStep [((0,0), "ON"), ((0,2), "ON")] 5 5) ((1:Int),(1:Int)) "OFF" =
      (if dget [((0,0), "ON"), ((0,2), "ON")] ((1:Int),(1:Int)) "OFF" = "ON" then "RECRUITING"
       else if dget [((0,0), "ON"), ((0,2), "ON")] ((1:Int),(1:Int)) "OFF" = "RECRUITING" then "OFF"
       else if onNeighborCount [((0,0), "ON"), ((0,2), "ON")] 5 5 ((1:Int),(1:Int)) = 2
         then "ON" else "OFF") :=
  ⟨by decide, by decide, by decide, by decide,
    bbStep_cell_rule [((0,0), "ON"), ((0,2), "ON")] 5 5 ((1:Int),(1:Int))
      (by decide) (by decide) (by decide) (by decide)⟩

/-! ## Extinction of all-default universes (C4 amended) -/

theorem bbFirstPass_aux_skip (grid : List (Coord × String)) (ng : List (Coord × String))
    (hall : ∀ kv ∈ grid, kv.2 ≠ "ON" ∧ kv.2 ≠ "RECRUITING") :
    grid.foldl (fun ng kv =>
      if kv.2 = "ON" then dinsert kv.1 "RECRUITING" ng
      else if kv.2 = "RECRUITING" then dinsert kv.1 "OFF" ng
      else ng) ng = ng := by
  induction grid generalizing ng with
  | nil => rfl
  | cons kv rest ih =>
    have h1 := hall kv (List.mem_cons_self _ _)
    simp only [List.foldl_cons, if_neg h1.1, if_neg h1.2]
    exact ih ng (fun kv hkv => hall kv (List.mem_cons_of_mem _ hkv))

theorem dget_zero_of_all_zero (cs : List (Coord × Nat)) (n : Coord)
    (hz : ∀ kv ∈ cs, kv.2 = 0) : dget cs n 0 = 0 := by
  cases hl : dlookup cs n with
  | none => simp [dget, hl]
  | some v =>
    have := hz (n, v) (dlookup_mem hl)
    simp only at this
    simp [dget, hl, this]

theorem dinsert_all_zero (cs : List (Coord × Nat)) (k : Coord)
    (hz : ∀ kv ∈ cs, kv.2 = 0) : ∀ kv ∈ dinsert k 0 cs, kv.2 = 0 := by
  induction cs with
  | nil =>
    intro kv hkv
    simp only [dinsert, List.mem_singleton] at hkv
    rw [hkv]
  | cons kv0 rest ih =>
    intro kv hkv
    by_cases hk : kv0.1 = k
    · rw [dinsert, if_pos hk] at hkv
      rcases List.mem_cons.mp hkv with rfl | hm
      · rfl
      · exact hz kv (List.mem_cons_of_mem _ hm)
    · rw [dinsert, if_neg hk] at hkv
      rcases List.mem_cons.mp hkv with rfl | hm
      · exact hz kv (List.mem_cons_self _ _)
      · exact ih (fun kv2 h2 => hz kv2 (List.mem_cons_of_mem _ h2)) kv hm

theorem bbCountsInner_zero (s : String) (hs : s ≠ "ON") (ns : List Coord)
    (cs : List (Coord × Nat)) (hz : ∀ kv ∈ cs, kv.2 = 0) :
    ∀ kv ∈ ns.foldl
      (fun cs n => dinsert n (dget cs n 0 + (if s = "ON" then 1 else 0)) cs) cs,
      kv.2 = 0 := by
  induction ns generalizing cs with
  | nil => exact hz
  | cons n ns ih =>
    simp only [List.foldl_cons]
    apply ih
    have hval : dget cs n 0 + (if s = "ON" then 1 else 0) = 0 := by
      rw [dget_zero_of_all_zero cs n hz, if_neg hs]
    rw [hval]
    exact dinsert_all_zero cs n hz

theorem bbCounts_zero_aux (h w : Int) (g2 : List (Coord × String))
    (cs : List (Coord × Nat)) (hno : ∀ kv ∈ g2, kv.2 ≠ "ON")
    (hz : ∀ kv ∈ cs, kv.2 = 0) :
    ∀ kv ∈ g2.foldl (fun counts kv =>
      (get_neighbors h w kv.1).foldl
        (fun cs n => dinsert n (dget cs n 0 + (if kv.2 = "ON" then 1 else 0)) cs)
        counts) cs, kv.2 = 0 := by
  induction g2 generalizing cs with
  | nil => exact hz
  | cons kv0 rest ih =>
    simp only [List.foldl_cons]
    apply ih
    · exact fun kv hkv => hno kv (List.mem_cons_of_mem _ hkv)
    · exact bbCountsInner_zero kv0.2 (hno kv0 (List.mem_cons_self _ _)) _ cs hz

/-- Every `neighbor_counts` value is 0 when no stored cell is ON. -/
theorem bbCounts_all_zero (grid : List (Coord × String)) (h w : Int)
    (hno : ∀ kv ∈ grid, kv.2 ≠ "ON") :
    ∀ kv ∈ bbCounts grid h w, kv.2 = 0 := by
  unfold bbCounts
  exact bbCounts_zero_aux h w grid [] hno (by simp)

theorem bbSecondPass_skip_aux (grid : List (Coord × String))
    (counts : List (Coord × Nat)) (ng : List (Coord × String))
    (hz : ∀ kv ∈ counts, kv.2 = 0) :
    counts.foldl (fun ng kv =>
      if kv.2 = 2 ∧ dget grid kv.1 "OFF" = "OFF" then dinsert kv.1 "ON" ng else ng) ng
      = ng := by
  induction counts generalizing ng with
  | nil => rfl
  | cons kv rest ih =>
    have h0 := hz kv (List.mem_cons_self _ _)
    have hcond : ¬(kv.2 = 2 ∧ dget grid kv.1 "OFF" = "OFF") := by
      rintro ⟨hk2, -⟩
      rw [h0] at hk2
      exact absurd hk2 (by decide)
    simp only [List.foldl_cons, if_neg hcond]
    exact ih ng (fun kv2 h2 => hz kv2 (List.mem_cons_of_mem _ h2))

/-- C4 (amended part that holds): stepping a universe all of whose stored
entries are explicit OFF yields the literally empty dict, so the driver's
`if not new_grid:` extinction branch is taken. -/
theorem bbStep_all_default_extinguishes (grid : List (Coord × String)) (h w : Int)
    (hall : ∀ kv ∈ grid, kv.2 = "OFF") :
    bbStep grid h w = [] ∧ extinctionSignal (bbStep grid h w) = true := by
  have hfp : bbFirstPass grid = [] := by
    unfold bbFirstPass
    exact bbFirstPass_aux_skip grid [] (fun kv hkv => by
      constructor <;> (rw [hall kv hkv]; decide))
  have hcz : ∀ kv ∈ bbCounts grid h w, kv.2 = 0 :=
    bbCounts_all_zero grid h w (fun kv hkv => by rw [hall kv hkv]; decide)
  have hstep : bbStep grid h w = [] := by
    unfold bbStep bbSecondPass
    rw [hfp]
    exact bbSecondPass_skip_aux grid _ _ hcz
  exact ⟨hstep, by rw [hstep]; rfl⟩

/-- Witness for `bbStep_all_default_extinguishes`. -/
theorem bbStep_all_default_extinguishes_witness :
    (∀ kv ∈ ([((0,0), "OFF")] : List (Coord × String)), kv.2 = "OFF") ∧
    (bbStep [((0,0), "OFF")] 5 5 = [] ∧
      extinctionSignal (bbStep [((0,0), "OFF")] 5 5) = true) :=
  ⟨by decide, bbStep_all_default_extinguishes [((0,0), "OFF")] 5 5 (by decide)⟩

/-! ## Stamp bounds policies (C9 amended) -/

/-- C9 (amended): neither cited script wraps stamp targets.
`game-of-wireworld1.py` bounds-checks and silently drops out-of-bounds
targets (stamping equals stamping with only the in-bounds offsets), and
`game-of-life.py` stores every target raw — `anchor + offset` without
any wrapping or bounds check. -/
theorem foldl_filter_cond {A : Type} (Q : Coord → Prop) [DecidablePred Q]
    (f : A → Coord → A) (cells : List Coord) (g0 : A) :
    cells.foldl (fun g d => if Q d then f g d else g) g0 =
      (cells.filter (fun d => decide (Q d))).foldl
        (fun g d => if Q d then f g d else g) g0 := by
  induction cells generalizing g0 with
  | nil => rfl
  | cons d cells ih =>
    by_cases hd : Q d
    · rw [List.foldl_cons, if_pos hd, List.filter_cons,
        if_pos (by exact decide_eq_true hd), List.foldl_cons, if_pos hd]
      exact ih _
    · rw [List.foldl_cons, if_neg hd, List.filter_cons,
        if_neg (by simpa using hd)]
      exact ih _

/-- C9 (amended): neither cited script wraps stamp targets.
`game-of-wireworld1.py` bounds-checks and silently drops out-of-bounds
targets (stamping equals stamping with only the in-bounds offsets), and
`game-of-life.py` stores every target raw — `anchor + offset` without
any wrapping or bounds check. -/
theorem stamp_bounds_policy (g1 : List (Coord × WCell)) (h w : Nat)
    (cells : List Coord) (cur : Coord) (g2 : Finset Coord) (c : Coord) :
    ww1Stamp g1 h w cells cur =
      ww1Stamp g1 h w (cells.filter (fun d =>
        decide (0 ≤ cur.1 + d.1 ∧ cur.1 + d.1 < (h : Int) ∧
          0 ≤ cur.2 + d.2 ∧ cur.2 + d.2 < (w : Int)))) cur ∧
    (c ∈ lifeStamp g2 cells cur ↔
      c ∈ g2 ∨ ∃ d ∈ cells, c = (cur.1 + d.1, cur.2 + d.2)) := by
  constructor
  · unfold ww1Stamp
    exact foldl_filter_cond
      (fun d => 0 ≤ cur.1 + d.1 ∧ cur.1 + d.1 < (h : Int) ∧
        0 ≤ cur.2 + d.2 ∧ cur.2 + d.2 < (w : Int))
      (fun g d => dinsert (cur.1 + d.1, cur.2 + d.2) WCell.wire g) cells g1
  · induction cells generalizing g2 with
    | nil => simp [lifeStamp]
    | cons d cells ih =>
      simp only [lifeStamp, List.foldl_cons] at *
      rw [ih]
      simp only [Finset.mem_insert, List.mem_cons]
      constructor
      · rintro ((rfl | hg) | ⟨d2, hm, he⟩)
        · exact Or.inr ⟨d, Or.inl rfl, rfl⟩
        · exact Or.inl hg
        · exact Or.inr ⟨d2, Or.inr hm, he⟩
      · rintro (hg | ⟨d2, (rfl | hm), he⟩)
        · exact Or.inl (Or.inr hg)
        · exact Or.inl (Or.inl he)
        · exact Or.inr ⟨d2, hm, he⟩

/-! ## Load failure characterization (C6 amended) -/

theorem mapOpt_eq_none_iff {α β : Type} (f : α → Option β) (l : List α) :
    mapOpt f l = none ↔ ∃ a ∈ l, f a = none := by
  induction l with
  | nil => simp [mapOpt]
  | cons a l ih =>
    simp only [mapOpt]
    cases ha : f a with
    | none => simp [ha]
    | some b =>
      cases hl : mapOpt f l with
      | none =>
        simp only [ha, hl, List.mem_cons]
        constructor
        · intro _
          obtain ⟨a2, hm, hf⟩ := ih.mp hl
          exact ⟨a2, Or.inr hm, hf⟩
        · intro _
          trivial
      | some bs =>
        simp only [List.mem_cons, reduceCtorEq, false_iff]
        rintro ⟨a2, (rfl | hm), hf⟩
        · rw [ha] at hf
          cases hf
        · have : mapOpt f l = none := ih.mpr ⟨a2, hm, hf⟩
          rw [hl] at this
          cases this

/-- C6 (amended): `load_state` fails (an uncaught `ValueError`) exactly
when some coordinate token cannot be decoded into integers; state tokens
are never validated, so a record whose states lie outside the rule's
state set still loads. -/
theorem bbLoad_fails_iff_bad_coordinate (r : List (List Char × String)) :
    bbLoad r = none ↔ ∃ kv ∈ r, decodeKey kv.1 = none := by
  unfold bbLoad
  rw [mapOpt_eq_none_iff]
  apply exists_congr
  intro kv
  apply and_congr_right
  intro _
  cases decodeKey kv.1 <;> simp

/-! ## Key codec round trip (C5 amended) -/

theorem digitVal_digitChar {d : Nat} (hd : d < 10) : digitVal (digitChar d) = some d := by
  interval_cases d <;> rfl

theorem digitChar_ne_comma (d : Nat) : digitChar d ≠ ',' := by
  unfold digitChar
  split_ifs <;> decide

theorem digitChar_ne_minus {d : Nat} (hd : d < 10) : digitChar d ≠ '-' := by
  interval_cases d <;> decide

theorem digitChar_ne_plus {d : Nat} (hd : d < 10) : digitChar d ≠ '+' := by
  interval_cases d <;> decide

theorem natToDigitsAux_ne_nil {fuel n : Nat} (h : n < fuel) :
    natToDigitsAux fuel n ≠ [] := by
  cases fuel with
  | zero => omega
  | succ f =>
    rw [natToDigitsAux]
    split
    · simp
    · simp

theorem comma_not_mem_natToDigitsAux (fuel n : Nat) :
    ',' ∉ natToDigitsAux fuel n := by
  induction fuel generalizing n with
  | zero => simp [natToDigitsAux]
  | succ f ih =>
    rw [natToDigitsAux]
    split
    · simp
      exact fun e => digitChar_ne_comma n e.symm
    · simp only [List.mem_append, List.mem_singleton]
      rintro (hm | he)
      · exact ih _ hm
      · exact digitChar_ne_comma (n % 10) he.symm

theorem natToDigitsAux_head_digit (fuel : Nat) :
    ∀ n, n < fuel → ∃ d cs, natToDigitsAux fuel n = digitChar d :: cs ∧ d < 10 := by
  induction fuel with
  | zero => omega
  | succ f ih =>
    intro n hn
    rw [natToDigitsAux]
    by_cases h10 : n < 10
    · rw [if_pos h10]
      exact ⟨n, [], rfl, h10⟩
    · rw [if_neg h10]
      have hf : n / 10 < f := by
        have h1 : n / 10 < n := Nat.div_lt_self (by omega) (by omega)
        omega
      obtain ⟨d, cs, he, hd⟩ := ih (n / 10) hf
      exact ⟨d, cs ++ [digitChar (n % 10)], by rw [he]; rfl, hd⟩

theorem parseNatAux_append (acc : Option Nat) (l1 l2 : List Char) :
    parseNatAux acc (l1 ++ l2) = parseNatAux (parseNatAux acc l1) l2 := by
  induction l1 generalizing acc with
  | nil => rfl
  | cons c l1 ih =>
    simp only [List.cons_append, parseNatAux]
    exact ih _

theorem parseStep_none (c : Char) : parseStep none c = none := by
  unfold parseStep
  cases digitVal c <;> rfl

theorem parseStep_digit (a d : Nat) (c : Char) (hdv : digitVal c = some d) :
    parseStep (some a) c = some (10 * a + d) := by
  unfold parseStep
  rw [hdv]

theorem parseNatAux_none (l : List Char) : parseNatAux none l = none := by
  induction l with
  | nil => rfl
  | cons c l ih =>
    rw [parseNatAux, parseStep_none]
    exact ih

theorem parseNatAux_digits (fuel : Nat) :
    ∀ n a, n < fuel →
      ∃ p, 0 < p ∧ parseNatAux (some a) (natToDigitsAux fuel n) = some (a * p + n) := by
  induction fuel with
  | zero => omega
  | succ f ih =>
    intro n a hn
    rw [natToDigitsAux]
    by_cases h10 : n < 10
    · rw [if_pos h10]
      refine ⟨10, by omega, ?_⟩
      have hv := digitVal_digitChar h10
      rw [parseNatAux, parseStep_digit a n _ hv]
      show some (10 * a + n) = some (a * 10 + n)
      congr 1
      ring
    · rw [if_neg h10]
      have hf : n / 10 < f := by
        have h1 : n / 10 < n := Nat.div_lt_self (by omega) (by omega)
        omega
      obtain ⟨p, hp, he⟩ := ih (n / 10) a hf
      rw [parseNatAux_append, he]
      refine ⟨10 * p, by omega, ?_⟩
      have hv := digitVal_digitChar (Nat.mod_lt n (show 0 < 10 by omega))
      rw [parseNatAux, parseStep_digit _ _ _ hv]
      show some (10 * (a * p + n / 10) + n % 10) = some (a * (10 * p) + n)
      congr 1
      have h2 : 10 * (a * p + n / 10) + n % 10 =
          a * (10 * p) + (10 * (n / 10) + n % 10) := by ring
      rw [h2, Nat.div_add_mod]

theorem parseNat_natToDigits (n : Nat) : parseNat (natToDigits n) = some n := by
  obtain ⟨p, hp, he⟩ := parseNatAux_digits (n + 1) n 0 (by omega)
  unfold parseNat natToDigits
  cases hd : natToDigitsAux (n + 1) n with
  | nil => exact absurd hd (natToDigitsAux_ne_nil (by omega))
  | cons c cs =>
    rw [hd] at he
    show parseNatAux (some 0) (c :: cs) = some n
    simpa using he

theorem pyInt_encInt (k : Int) : pyInt (encInt k) = some k := by
  unfold encInt
  by_cases hk : k < 0
  · rw [if_pos hk]
    rw [pyInt]
    rw [if_pos rfl]
    rw [parseNat_natToDigits]
    show some (-(k.natAbs : Int)) = some k
    congr 1
    omega
  · rw [if_neg hk]
    obtain ⟨d, cs, hdig, hdlt⟩ :=
      natToDigitsAux_head_digit (k.natAbs + 1) k.natAbs (by omega)
    unfold natToDigits
    rw [hdig, pyInt, if_neg (digitChar_ne_minus hdlt), if_neg (digitChar_ne_plus hdlt),
      ← hdig, show natToDigitsAux (k.natAbs + 1) k.natAbs = natToDigits k.natAbs from rfl,
      parseNat_natToDigits]
    show some ((k.natAbs : Int)) = some k
    congr 1
    omega

theorem comma_not_mem_encInt (k : Int) : ',' ∉ encInt k := by
  unfold encInt natToDigits
  split
  · simp only [List.mem_cons]
    rintro (he | hm)
    · cases he
    · exact comma_not_mem_natToDigitsAux _ _ hm
  · exact comma_not_mem_natToDigitsAux _ _

theorem splitComma_no_comma (l : List Char) (h : ',' ∉ l) : splitComma l = [l] := by
  induction l with
  | nil => rfl
  | cons c l ih =>
    have hc : c ≠ ',' := fun e => h (e ▸ List.mem_cons_self _ _)
    rw [splitComma, if_neg (fun e => hc e)]
    rw [ih (fun hm => h (List.mem_cons_of_mem _ hm))]

theorem splitComma_append (l1 l2 : List Char) (h1 : ',' ∉ l1) :
    splitComma (l1 ++ ',' :: l2) = l1 :: splitComma l2 := by
  induction l1 with
  | nil =>
    simp only [List.nil_append]
    rw [splitComma, if_pos rfl]
  | cons c l1 ih =>
    have hc : c ≠ ',' := fun e => h1 (e ▸ List.mem_cons_self _ _)
    simp only [List.cons_append]
    rw [splitComma, if_neg (fun e => hc e)]
    rw [ih (fun hm => h1 (List.mem_cons_of_mem _ hm))]

/-- Decoding the key `f"{y},{x}"` recovers the coordinate as `[y, x]`. -/
theorem decodeKey_encKey (y x : Int) : decodeKey (encKey y x) = some [y, x] := by
  unfold decodeKey encKey
  rw [splitComma_append _ _ (comma_not_mem_encInt y),
    splitComma_no_comma _ (comma_not_mem_encInt x)]
  simp only [mapOpt, pyInt_encInt]

/-- C5 (amended): for a universe whose stored entries are all non-default,
loading the record produced by the save handler yields exactly the
original universe (with the coordinate pairs materialized as the 2-int
tuples `load_state` produces). -/
theorem bb_roundtrip_no_defaults (U : List (Coord × String))
    (hU : ∀ kv ∈ U, kv.2 ≠ "OFF") :
    bbLoad (bbSaveRecord U) = some (asLoaded U) := by
  have hf : U.filter (fun kv => decide (kv.2 ≠ "OFF")) = U :=
    List.filter_eq_self.mpr (fun kv hkv => by simpa using hU kv hkv)
  unfold bbSaveRecord
  rw [hf]
  clear hf hU
  induction U with
  | nil => rfl
  | cons kv rest ih =>
    simp only [List.map_cons, bbLoad, mapOpt, decodeKey_encKey, asLoaded] at *
    rw [ih]
    rfl

/-- Witness for `bb_roundtrip_no_defaults`. -/
theorem bb_roundtrip_no_defaults_witness :
    (∀ kv ∈ ([((0,0), "ON")] : List (Coord × String)), kv.2 ≠ "OFF") ∧
    bbLoad (bbSaveRecord [((0,0), "ON")]) = some (asLoaded [((0,0), "ON")]) :=
  ⟨by decide, bb_roundtrip_no_defaults [((0,0), "ON")] (by decide)⟩
